import Mathlib

/-!
Verification of `tensortrade/features/scalers/min_max_normalizer.py`
(`MinMaxNormalizer`): a feature transformer that rescales tracked table
columns using externally supplied per-column bounds, and updates the
observation-space descriptor accordingly.

Numeric values are modelled as exact rationals (`ℚ`).  Python exceptions
(`KeyError`, `IndexError`, `ZeroDivisionError`, `TypeError`, `ValueError`)
are modelled with an explicit error type and `Except`.  A second,
heap-instrumented embedding of the same two methods makes Python object
identity and attribute mutation observable, so that the frame claims
(no mutation of caller-owned inputs) are meaningful statements.
-/

namespace TensorTrade

/-- Python exceptions that the code under scrutiny can raise. -/
inductive Err where
  | keyError : String → Err
  | indexError : Err
  | zeroDivisionError : Err
  | typeError : Err
  | valueError : Err
  | invalidRef : Err
deriving DecidableEq, Repr

/-- A `gym.Space` descriptor as used by the code: a `shape` tuple and the
parallel per-dimension bound sequences `low` / `high`. -/
structure Space where
  shape : List Nat
  low : List ℚ
  high : List ℚ
deriving DecidableEq, Repr

/-- A `pandas.DataFrame`: an ordered mapping from column name to the ordered
sequence of that column's values (rows aligned positionally). -/
structure Table where
  cols : List (String × List ℚ)
deriving DecidableEq, Repr

/-- Column lookup by name, `X[c]` (first match). -/
def Table.lookup (X : Table) (c : String) : Option (List ℚ) :=
  (X.cols.find? (fun p => p.1 == c)).map Prod.snd

/-- The column names in table order, `list(X.columns)`. -/
def Table.colNames (X : Table) : List String :=
  X.cols.map Prod.fst

/-- The assignment `X.assign(**{c: vs})`: returns a new table in which column `c` is set to
`vs` — replacing it in place if a column named `c` exists, appending it at the
end otherwise.  All other columns are carried over. -/
def Table.assign (X : Table) (c : String) (vs : List ℚ) : Table :=
  if X.cols.any (fun p => p.1 == c) then
    ⟨X.cols.map (fun p => if p.1 == c then (c, vs) else p)⟩
  else
    ⟨X.cols ++ [(c, vs)]⟩

/-- Modelled from the spec: the `FeatureTransformer` base class (not under
`src/`) stores the constructor configuration `{columns, inplace}` as plain
attributes, read and written by the subclass; `MinMaxNormalizer.__init__`
additionally stores `feature_min` and `feature_max`. -/
structure MinMaxNormalizer where
  columns : Option (List String)
  feature_min : ℚ
  feature_max : ℚ
  inplace : Bool
deriving DecidableEq, Repr

/-- Python `'{}'.format(x)` for the numbers interpolated into synthesized
column names.  For integral values this is exactly Python's rendering of an
`int` (the constructor defaults `feature_min=0`, `feature_max=1` are `int`
literals); non-integral rationals are rendered via `ℚ`'s `toString`. -/
def fmtNum (q : ℚ) : String :=
  if q.den = 1 then toString q.num else toString q

namespace MinMaxNormalizer

/-- Method `transform_space` (lines 45–61 of the source).  `column_names` is the
declared second parameter of the method; the body never reads it.  With
`inplace` the input descriptor is returned as is.  Otherwise the descriptor is
copied, `shape_x, *shape_y = input_space.shape` (a `ValueError` on an empty
tuple), then `columns = self.columns or range(len(shape_x))`: when
`self.columns` is falsy (None or the empty list) the fallback evaluates
`len(shape_x)` on an integer, a `TypeError`.  Otherwise the first shape entry
grows by `len(columns)` and one `feature_min` / `feature_max` is appended to
`low` / `high` per tracked column. -/
def transform_space (n : MinMaxNormalizer) (input_space : Space)
    (column_names : List String) : Except Err Space :=
  if n.inplace then .ok input_space
  else
    match input_space.shape with
    | [] => .error .valueError
    | shape_x :: shape_y =>
      match n.columns with
      | some (c :: cs) =>
        let columns := c :: cs
        .ok { shape := (shape_x + columns.length) :: shape_y
              low := columns.foldl (fun a _ => a ++ [n.feature_min]) input_space.low
              high := columns.foldl (fun a _ => a ++ [n.feature_max]) input_space.high }
      | _ => .error .typeError

/-- The loop body of `transform` that computes the normalized column (lines
67–76): reads `low = input_space.low[idx]`, `high = input_space.high[idx]`
(an `IndexError` when out of range), computes
`scale = (feature_max - feature_min) + feature_min`, and branches: when
`high - low == 0` the scalar `(1/len(X[column])) * scale` is produced and
broadcast over the rows (a `KeyError` when the column is absent, a
`ZeroDivisionError` on a zero-row table); otherwise the vectorized
`(X[column] - low) / (high - low) * scale`. -/
def normalizedColumn (n : MinMaxNormalizer) (X : Table) (input_space : Space)
    (idx : Nat) (column : String) : Except Err (List ℚ) :=
  match input_space.low.get? idx with
  | none => .error .indexError
  | some low =>
    match input_space.high.get? idx with
    | none => .error .indexError
    | some high =>
      let scale := (n.feature_max - n.feature_min) + n.feature_min
      if high - low = 0 then
        match X.lookup column with
        | none => .error (.keyError column)
        | some vs =>
          if vs.length = 0 then .error .zeroDivisionError
          else .ok (List.replicate vs.length ((1 / (vs.length : ℚ)) * scale))
      else
        match X.lookup column with
        | none => .error (.keyError column)
        | some vs => .ok (vs.map (fun v => (v - low) / (high - low) * scale))

/-- The destination column name (lines 78–79): the original name in in-place
mode, the synthesized `'{}_minmax_{}_{}'.format(column, feature_min,
feature_max)` otherwise. -/
def destName (n : MinMaxNormalizer) (column : String) : String :=
  if n.inplace then column
  else column ++ "_minmax_" ++ fmtNum n.feature_min ++ "_" ++ fmtNum n.feature_max

/-- The `for idx, column in enumerate(self.columns)` loop of `transform`
(lines 66–84): each iteration computes the normalized column for the current
table and rebinds the local table to `X.assign(...)`; any exception aborts the
loop and propagates. -/
def transformLoop (n : MinMaxNormalizer) (input_space : Space) :
    Nat → List String → Table → Except Err Table
  | _, [], X => .ok X
  | idx, column :: rest, X =>
    match normalizedColumn n X input_space idx column with
    | .error e => .error e
    | .ok vals => transformLoop n input_space (idx + 1) rest (X.assign (destName n column) vals)

/-- Method `transform` (lines 63–86).  The lazy-resolution side effect on
`self.columns` happens first (and persists even when the loop later raises),
so the method is modelled as returning the updated transformer object
alongside the loop's outcome. -/
def transform (n : MinMaxNormalizer) (X : Table) (input_space : Space) :
    MinMaxNormalizer × Except Err Table :=
  let n' := match n.columns with
    | none => { n with columns := some X.colNames }
    | some _ => n
  (n', transformLoop n' input_space 0 (n'.columns.getD []) X)

end MinMaxNormalizer

/-!
## Heap-instrumented embedding

The pure model above treats tables and descriptors as values, which erases
Python object identity.  To settle the frame claims the same two methods are
re-embedded over an explicit heap: numpy arrays, space objects and table
objects live in stores and are referred to by index.  `copy(input_space)` is
a genuine shallow copy (the new object shares the array references),
`np.append` and `DataFrame.assign` allocate, and the attribute writes
`output_space.shape/low/high = ...` update the object's slot in the store.
-/

/-- A `gym.Space` object state: the `shape` attribute and references to the
`low` / `high` numpy arrays. -/
structure SpObj where
  shape : List Nat
  low : Nat
  high : Nat
deriving DecidableEq, Repr

/-- A `pandas.DataFrame` object state: ordered column names with references
to the column arrays. -/
structure TbObj where
  cols : List (String × Nat)
deriving DecidableEq, Repr

/-- The heap: stores of numpy arrays, space objects and table objects,
addressed by index. -/
structure Heap where
  arrays : List (List ℚ)
  spaces : List SpObj
  tables : List TbObj
deriving DecidableEq, Repr

/-- Dereference an array (unused default for dangling references). -/
def Heap.getArray (h : Heap) (r : Nat) : List ℚ :=
  (h.arrays.get? r).getD []

/-- Allocate a fresh array. -/
def Heap.allocArray (h : Heap) (a : List ℚ) : Heap × Nat :=
  ({ h with arrays := h.arrays ++ [a] }, h.arrays.length)

/-- Allocate a fresh space object. -/
def Heap.allocSpace (h : Heap) (o : SpObj) : Heap × Nat :=
  ({ h with spaces := h.spaces ++ [o] }, h.spaces.length)

/-- Allocate a fresh table object. -/
def Heap.allocTable (h : Heap) (o : TbObj) : Heap × Nat :=
  ({ h with tables := h.tables ++ [o] }, h.tables.length)

/-- Attribute write on an existing space object. -/
def Heap.setSpace (h : Heap) (r : Nat) (o : SpObj) : Heap :=
  { h with spaces := h.spaces.set r o }

/-- The call `np.append(arr, q)`: allocates a new, extended array; the argument array
is not touched. -/
def Heap.npAppend (h : Heap) (r : Nat) (q : ℚ) : Heap × Nat :=
  h.allocArray (h.getArray r ++ [q])

/-- Column lookup `X[c]` through the heap: find the column reference, dereference it. -/
def Heap.lookupCol (h : Heap) (tr : Nat) (c : String) : Option (List ℚ) :=
  match h.tables.get? tr with
  | none => none
  | some t =>
    match t.cols.find? (fun p => p.1 == c) with
    | none => none
    | some p => some (h.getArray p.2)

/-- The column names `list(X.columns)` through the heap. -/
def Heap.colNamesAt (h : Heap) (tr : Nat) : List String :=
  ((h.tables.get? tr).getD ⟨[]⟩).cols.map Prod.fst

/-- The assignment `X.assign(**{c: vs})` through the heap: allocates an array for the new
values and a new table object (replacing or appending the column reference);
neither the receiver object nor any existing array is written. -/
def Heap.assignCol (h : Heap) (tr : Nat) (c : String) (vs : List ℚ) : Heap × Nat :=
  match h.tables.get? tr with
  | none => (h, tr)
  | some t =>
    let ha := h.allocArray vs
    let obj : TbObj :=
      if t.cols.any (fun p => p.1 == c) then
        ⟨t.cols.map (fun p => if p.1 == c then (c, ha.2) else p)⟩
      else
        ⟨t.cols ++ [(c, ha.2)]⟩
    ha.1.allocTable obj

namespace MinMaxNormalizer

/-- The `for _ in columns` loop of `transform_space` (lines 57–59): each pass
reads the output object's current `low` / `high` references, builds extended
arrays with `np.append`, and writes the new references back into the output
object `r1`. -/
def appendBounds (n : MinMaxNormalizer) (r1 : Nat) :
    List String → Heap → Heap
  | [], h => h
  | _ :: rest, h =>
    let o := (h.spaces.get? r1).getD ⟨[], 0, 0⟩
    let pa := h.npAppend o.low n.feature_min
    let h2 := pa.1.setSpace r1 { o with low := pa.2 }
    let o2 := (h2.spaces.get? r1).getD ⟨[], 0, 0⟩
    let pb := h2.npAppend o2.high n.feature_max
    let h4 := pb.1.setSpace r1 { o2 with high := pb.2 }
    appendBounds n r1 rest h4

/-- Method `transform_space` over the heap (lines 45–61): in-place mode returns the
input reference itself; otherwise `copy(input_space)` allocates a shallow
copy `r1` (sharing the array references), the `shape` attribute of `r1` is
reassigned, and the bounds loop extends the copy's arrays. -/
def transform_spaceH (n : MinMaxNormalizer) (h : Heap) (r : Nat)
    (column_names : List String) : Heap × Except Err Nat :=
  if n.inplace then (h, .ok r)
  else
    match h.spaces.get? r with
    | none => (h, .error .invalidRef)
    | some sp =>
      let pc := h.allocSpace sp
      match sp.shape with
      | [] => (pc.1, .error .valueError)
      | shape_x :: shape_y =>
        match n.columns with
        | some (c :: cs) =>
          let columns := c :: cs
          let h2 := pc.1.setSpace pc.2 { sp with shape := (shape_x + columns.length) :: shape_y }
          (appendBounds n pc.2 columns h2, .ok pc.2)
        | _ => (pc.1, .error .typeError)

/-- The normalized-column computation of `transform` over the heap (lines
67–76); reads only. -/
def normalizedColumnH (n : MinMaxNormalizer) (h : Heap) (tr : Nat)
    (input_space : Space) (idx : Nat) (column : String) : Except Err (List ℚ) :=
  match input_space.low.get? idx with
  | none => .error .indexError
  | some low =>
    match input_space.high.get? idx with
    | none => .error .indexError
    | some high =>
      let scale := (n.feature_max - n.feature_min) + n.feature_min
      if high - low = 0 then
        match h.lookupCol tr column with
        | none => .error (.keyError column)
        | some vs =>
          if vs.length = 0 then .error .zeroDivisionError
          else .ok (List.replicate vs.length ((1 / (vs.length : ℚ)) * scale))
      else
        match h.lookupCol tr column with
        | none => .error (.keyError column)
        | some vs => .ok (vs.map (fun v => (v - low) / (high - low) * scale))

/-- The iteration of `transform` over the heap (lines 66–84): the local name
`X` is rebound to the table object returned by `assign`; nothing already on
the heap is written. -/
def transformLoopH (n : MinMaxNormalizer) (input_space : Space) :
    Nat → List String → Heap → Nat → Heap × Except Err Nat
  | _, [], h, tr => (h, .ok tr)
  | idx, column :: rest, h, tr =>
    match normalizedColumnH n h tr input_space idx column with
    | .error e => (h, .error e)
    | .ok vals =>
      let pa := h.assignCol tr (destName n column) vals
      transformLoopH n input_space (idx + 1) rest pa.1 pa.2

/-- Method `transform` over the heap (lines 63–86). -/
def transformH (n : MinMaxNormalizer) (h : Heap) (tr : Nat)
    (input_space : Space) : MinMaxNormalizer × Heap × Except Err Nat :=
  let n' := match n.columns with
    | none => { n with columns := some (h.colNamesAt tr) }
    | some _ => n
  let p := transformLoopH n' input_space 0 (n'.columns.getD []) h tr
  (n', p.1, p.2)

end MinMaxNormalizer

/-- Heap evolution that leaves every pre-existing object and array intact:
stores only grow, and every slot that existed before holds its old value. -/
structure HPres (h0 h1 : Heap) : Prop where
  arrays_le : h0.arrays.length ≤ h1.arrays.length
  spaces_le : h0.spaces.length ≤ h1.spaces.length
  tables_le : h0.tables.length ≤ h1.tables.length
  arrays_eq : ∀ i, i < h0.arrays.length → h1.arrays.get? i = h0.arrays.get? i
  spaces_eq : ∀ i, i < h0.spaces.length → h1.spaces.get? i = h0.spaces.get? i
  tables_eq : ∀ i, i < h0.tables.length → h1.tables.get? i = h0.tables.get? i

/-! ## Basic lemmas about the table and list operations -/

theorem foldl_append_replicate {α : Type} (q : ℚ) :
    ∀ (l : List α) (init : List ℚ),
      l.foldl (fun a _ => a ++ [q]) init = init ++ List.replicate l.length q
  | [], init => by simp
  | a :: l, init => by
    rw [List.foldl_cons, foldl_append_replicate q l (init ++ [q])]
    simp [List.replicate_succ]

theorem find?_map_assign_self (c : String) (vs : List ℚ) :
    ∀ l : List (String × List ℚ), l.any (fun p => p.1 == c) = true →
      (l.map (fun p => if p.1 == c then (c, vs) else p)).find? (fun p => p.1 == c) =
        some (c, vs) := by
  intro l
  induction l with
  | nil => intro h; simp at h
  | cons p l ih =>
    intro h
    cases hb : (p.1 == c) with
    | true =>
      simp only [List.map_cons, hb, if_true]
      rw [List.find?_cons_of_pos _ (by simp)]
    | false =>
      simp only [List.map_cons, hb, Bool.false_eq_true, if_false]
      rw [List.find?_cons_of_neg _ (by simp [hb])]
      apply ih
      simpa [hb] using h

theorem Table.lookup_assign_self (X : Table) (c : String) (vs : List ℚ) :
    (X.assign c vs).lookup c = some vs := by
  unfold Table.assign Table.lookup
  cases hany : X.cols.any (fun p => p.1 == c) with
  | true =>
    simp only [hany, if_true]
    rw [find?_map_assign_self c vs X.cols hany]
    rfl
  | false =>
    have hn : X.cols.find? (fun p => p.1 == c) = none := by
      rw [List.find?_eq_none]
      intro x hx
      simp [List.any_eq_false.mp hany x hx]
    simp only [hany, Bool.false_eq_true, if_false]
    rw [List.find?_append, hn]
    simp

theorem find?_map_assign_ne (c d : String) (vs : List ℚ) (hne : d ≠ c) :
    ∀ l : List (String × List ℚ),
      (l.map (fun p => if p.1 == d then (d, vs) else p)).find? (fun p => p.1 == c) =
        l.find? (fun p => p.1 == c) := by
  intro l
  induction l with
  | nil => simp
  | cons p l ih =>
    cases hb : (p.1 == d) with
    | true =>
      have hpd : p.1 = d := by simpa using hb
      simp only [List.map_cons, hb, if_true]
      rw [List.find?_cons_of_neg _ (by simp [hne]),
        List.find?_cons_of_neg _ (by simp [hpd, hne]), ih]
    | false =>
      simp only [List.map_cons, hb, Bool.false_eq_true, if_false]
      cases hpc : (p.1 == c) with
      | true =>
        rw [List.find?_cons_of_pos _ (by simp [hpc]),
          List.find?_cons_of_pos _ (by simp [hpc])]
      | false =>
        rw [List.find?_cons_of_neg _ (by simp [hpc]),
          List.find?_cons_of_neg _ (by simp [hpc]), ih]

theorem Table.lookup_assign_ne (X : Table) (c d : String) (vs : List ℚ)
    (hne : d ≠ c) : (X.assign d vs).lookup c = X.lookup c := by
  unfold Table.assign Table.lookup
  cases hany : X.cols.any (fun p => p.1 == d) with
  | true =>
    simp only [hany, if_true]
    rw [find?_map_assign_ne c d vs hne X.cols]
  | false =>
    simp only [hany, Bool.false_eq_true, if_false]
    rw [List.find?_append]
    have hd : List.find? (fun p => p.1 == c) [(d, vs)] = none := by
      have : (d == c) = false := by simpa using hne
      simp [List.find?, this]
    rw [hd]
    simp

theorem Table.any_eq_false_of_not_mem (X : Table) (d : String)
    (h : d ∉ X.colNames) : X.cols.any (fun p => p.1 == d) = false := by
  rw [List.any_eq_false]
  intro x hx
  simp only [beq_iff_eq]
  intro hxd
  exact h (by
    unfold Table.colNames
    exact hxd ▸ List.mem_map_of_mem Prod.fst hx)

theorem Table.colNames_assign_of_not_mem (X : Table) (d : String) (vs : List ℚ)
    (h : d ∉ X.colNames) : (X.assign d vs).colNames = X.colNames ++ [d] := by
  unfold Table.assign
  rw [X.any_eq_false_of_not_mem d h]
  simp [Table.colNames]

theorem MinMaxNormalizer.normalizedColumn_congr (n : MinMaxNormalizer)
    (X Y : Table) (sp : Space) (idx : Nat) (column : String)
    (h : X.lookup column = Y.lookup column) :
    n.normalizedColumn X sp idx column = n.normalizedColumn Y sp idx column := by
  unfold MinMaxNormalizer.normalizedColumn
  rw [h]

theorem MinMaxNormalizer.transformLoop_nil (n : MinMaxNormalizer) (sp : Space)
    (idx : Nat) (X : Table) : MinMaxNormalizer.transformLoop n sp idx [] X = .ok X := rfl

theorem MinMaxNormalizer.transformLoop_cons (n : MinMaxNormalizer) (sp : Space)
    (idx : Nat) (column : String) (rest : List String) (X : Table) :
    MinMaxNormalizer.transformLoop n sp idx (column :: rest) X =
      match n.normalizedColumn X sp idx column with
      | .error e => .error e
      | .ok vals =>
        MinMaxNormalizer.transformLoop n sp (idx + 1) rest
          (X.assign (n.destName column) vals) := rfl

theorem MinMaxNormalizer.normalizedColumn_nondeg (n : MinMaxNormalizer)
    (X : Table) (sp : Space) (idx : Nat) (column : String) (low high : ℚ)
    (vs : List ℚ) (hlow : sp.low.get? idx = some low)
    (hhigh : sp.high.get? idx = some high) (hne : high - low ≠ 0)
    (hcol : X.lookup column = some vs) :
    n.normalizedColumn X sp idx column =
      .ok (vs.map (fun v => (v - low) / (high - low) * n.feature_max)) := by
  have hscale : (n.feature_max - n.feature_min) + n.feature_min = n.feature_max := by
    ring
  unfold MinMaxNormalizer.normalizedColumn
  rw [hlow, hhigh]
  simp only [hscale, hne, if_false, hcol]

theorem MinMaxNormalizer.normalizedColumn_deg (n : MinMaxNormalizer)
    (X : Table) (sp : Space) (idx : Nat) (column : String) (low high : ℚ)
    (vs : List ℚ) (hlow : sp.low.get? idx = some low)
    (hhigh : sp.high.get? idx = some high) (hdeg : high - low = 0)
    (hcol : X.lookup column = some vs) (hlen : vs.length ≠ 0) :
    n.normalizedColumn X sp idx column =
      .ok (List.replicate vs.length (n.feature_max / vs.length)) := by
  have hscale : (n.feature_max - n.feature_min) + n.feature_min = n.feature_max := by
    ring
  have hval : (1 / (vs.length : ℚ)) * n.feature_max = n.feature_max / vs.length := by
    ring
  unfold MinMaxNormalizer.normalizedColumn
  rw [hlow, hhigh]
  simp only [hscale, hdeg, if_true, hcol]
  rw [if_neg hlen, hval]

theorem MinMaxNormalizer.normalizedColumn_keyError (n : MinMaxNormalizer)
    (X : Table) (sp : Space) (idx : Nat) (column : String) (low high : ℚ)
    (hlow : sp.low.get? idx = some low) (hhigh : sp.high.get? idx = some high)
    (hcol : X.lookup column = none) :
    n.normalizedColumn X sp idx column = .error (.keyError column) := by
  unfold MinMaxNormalizer.normalizedColumn
  rw [hlow, hhigh]
  by_cases hdeg : high - low = 0
  · simp only [hdeg, if_true, hcol]
  · simp only [hdeg, if_false, hcol]

theorem MinMaxNormalizer.transform_eq_of_some (n : MinMaxNormalizer)
    (cs : List String) (h : n.columns = some cs) (X : Table) (sp : Space) :
    n.transform X sp = (n, MinMaxNormalizer.transformLoop n sp 0 cs X) := by
  unfold MinMaxNormalizer.transform
  simp [h]

theorem MinMaxNormalizer.transform_eq_of_none (n : MinMaxNormalizer)
    (h : n.columns = none) (X : Table) (sp : Space) :
    n.transform X sp =
      ({ n with columns := some X.colNames },
        MinMaxNormalizer.transformLoop { n with columns := some X.colNames }
          sp 0 X.colNames X) := by
  unfold MinMaxNormalizer.transform
  simp [h]

/-! ## Claim theorems -/

open MinMaxNormalizer

/-- C1: for every tracked column whose declared bounds satisfy `high ≠ low`
and every row of the input table, the value `transform` writes to the
destination column is `(value - low) / (high - low) * feature_max` — the
scale factor collapses to `feature_max` for every choice of `feature_min`:
the loop body produces exactly this list of values, the loop continues on the
table with the destination column assigned to it, and the destination column
of that table holds it. -/
theorem claim_C1_nondegenerate_scaling (n : MinMaxNormalizer) (sp : Space)
    (X : Table) (idx : Nat) (column : String) (low high : ℚ) (vs : List ℚ)
    (hlow : sp.low.get? idx = some low) (hhigh : sp.high.get? idx = some high)
    (hne : high - low ≠ 0) (hcol : X.lookup column = some vs)
    (rest : List String) :
    n.normalizedColumn X sp idx column =
      .ok (vs.map (fun v => (v - low) / (high - low) * n.feature_max)) ∧
    transformLoop n sp idx (column :: rest) X =
      transformLoop n sp (idx + 1) rest
        (X.assign (destName n column)
          (vs.map (fun v => (v - low) / (high - low) * n.feature_max))) ∧
    (X.assign (destName n column)
        (vs.map (fun v => (v - low) / (high - low) * n.feature_max))).lookup
        (destName n column) =
      some (vs.map (fun v => (v - low) / (high - low) * n.feature_max)) := by
  have h1 := n.normalizedColumn_nondeg X sp idx column low high vs hlow hhigh hne hcol
  refine ⟨h1, ?_, Table.lookup_assign_self _ _ _⟩
  rw [MinMaxNormalizer.transformLoop_cons, h1]

/-- C1 witness: Scenario A of the spec — `price = [10, 20, 30]`,
bounds `low = 10`, `high = 30`, `feature_min = 0`, `feature_max = 1`,
in-place — produces `[0, 1/2, 1]`. -/
theorem claim_C1_nondegenerate_scaling_witness :
    normalizedColumn ⟨some ["price"], 0, 1, true⟩
        ⟨[("price", [10, 20, 30])]⟩ ⟨[1], [10], [30]⟩ 0 "price" =
      .ok ([(10 : ℚ), 20, 30].map (fun v => (v - 10) / ((30 : ℚ) - 10) * 1)) ∧
    transformLoop ⟨some ["price"], 0, 1, true⟩ ⟨[1], [10], [30]⟩ 0 ["price"]
        ⟨[("price", [10, 20, 30])]⟩ =
      transformLoop ⟨some ["price"], 0, 1, true⟩ ⟨[1], [10], [30]⟩ 1 []
        (Table.assign ⟨[("price", [10, 20, 30])]⟩
          (destName ⟨some ["price"], 0, 1, true⟩ "price")
          ([(10 : ℚ), 20, 30].map (fun v => (v - 10) / ((30 : ℚ) - 10) * 1))) := by
  have h := claim_C1_nondegenerate_scaling ⟨some ["price"], 0, 1, true⟩
    ⟨[1], [10], [30]⟩ ⟨[("price", [10, 20, 30])]⟩ 0 "price" 10 30
    [10, 20, 30] rfl rfl (by norm_num) rfl []
  exact ⟨h.1, h.2.1⟩

/-- C2: for every tracked column with degenerate declared bounds
(`high - low = 0`) over a table with at least one row, the loop body produces
the same constant `feature_max / row_count` in every row, independent of the
column's actual values and of the common bound value. -/
theorem claim_C2_degenerate_constant (n : MinMaxNormalizer) (sp : Space)
    (X : Table) (idx : Nat) (column : String) (low high : ℚ) (vs : List ℚ)
    (row_count : Nat) (hlow : sp.low.get? idx = some low)
    (hhigh : sp.high.get? idx = some high) (hdeg : high - low = 0)
    (hcol : X.lookup column = some vs) (hrc : vs.length = row_count)
    (hpos : 1 ≤ row_count) (rest : List String) :
    n.normalizedColumn X sp idx column =
      .ok (List.replicate row_count (n.feature_max / row_count)) ∧
    transformLoop n sp idx (column :: rest) X =
      transformLoop n sp (idx + 1) rest
        (X.assign (destName n column)
          (List.replicate row_count (n.feature_max / row_count))) := by
  have hlen : vs.length ≠ 0 := by omega
  have h1 : n.normalizedColumn X sp idx column =
      .ok (List.replicate row_count (n.feature_max / row_count)) := by
    rw [n.normalizedColumn_deg X sp idx column low high vs hlow hhigh hdeg hcol hlen, hrc]
  refine ⟨h1, ?_⟩
  rw [MinMaxNormalizer.transformLoop_cons, h1]

/-- C2 witness: Scenario B of the spec — degenerate bounds `low = high = 5`
over three rows with `feature_max = 1` produce `[1/3, 1/3, 1/3]`, whatever
the column's values. -/
theorem claim_C2_degenerate_constant_witness :
    normalizedColumn ⟨some ["price"], 0, 1, true⟩
        ⟨[("price", [10, 20, 30])]⟩ ⟨[1], [5], [5]⟩ 0 "price" =
      .ok (List.replicate 3 ((1 : ℚ) / 3)) := by
  have h := claim_C2_degenerate_constant ⟨some ["price"], 0, 1, true⟩
    ⟨[1], [5], [5]⟩ ⟨[("price", [10, 20, 30])]⟩ 0 "price" 5 5 [10, 20, 30] 3
    rfl rfl (by norm_num) rfl rfl (by norm_num) []
  rw [h.1]
  norm_num

/-- C3: the claim describes the `columns` fallback of `transform_space`
(`inplace = False`, `ColumnSet` unset) as extending the descriptor by
`shape[0]` tracked columns.  The code computes `range(len(shape_x))` where
`shape_x` is the integer first element of the shape tuple, and `len` of an
integer unconditionally raises `TypeError`, so the fallback path always
fails instead. -/
theorem claim_C3_fallback_type_error (n : MinMaxNormalizer) (sp : Space)
    (column_names : List String) (shape_x : Nat) (shape_y : List Nat)
    (hin : n.inplace = false) (hcols : n.columns = none)
    (hshape : sp.shape = shape_x :: shape_y) :
    n.transform_space sp column_names = .error .typeError := by
  unfold MinMaxNormalizer.transform_space
  rw [hin, hshape, hcols]
  simp

/-- C3 witness: the concrete failing input — `inplace = False`,
`columns = None`, `shape = (2,)` — hits the `TypeError`. -/
theorem claim_C3_fallback_type_error_witness :
    MinMaxNormalizer.transform_space ⟨none, 0, 1, false⟩ ⟨[2], [0, 0], [1, 1]⟩ [] =
      .error .typeError :=
  claim_C3_fallback_type_error ⟨none, 0, 1, false⟩ ⟨[2], [0, 0], [1, 1]⟩ []
    2 [] rfl rfl rfl

/-- C4: when `ColumnSet` is unset at the first `transform` call it is set to
all column names of the input table, in their existing order, and persisted
on the transform for all future calls; consequently (Scenario D) a first
call with `columns = None` on a table with columns `a, b` resolves the
tracked columns to `[a, b]`, and a second call on a table containing only
`a` raises the lookup failure for `b` rather than re-resolving. -/
theorem claim_C4_lazy_resolution (n : MinMaxNormalizer) (X : Table) (sp : Space)
    (h : n.columns = none) :
    (n.transform X sp).1.columns = some X.colNames ∧
    (∀ X2 sp2, ((n.transform X sp).1.transform X2 sp2).1 = (n.transform X sp).1) ∧
    (MinMaxNormalizer.transform ⟨none, 0, 1, true⟩ ⟨[("a", [1]), ("b", [2])]⟩
        ⟨[2], [0, 0], [1, 1]⟩).1.columns = some ["a", "b"] ∧
    ((MinMaxNormalizer.transform ⟨none, 0, 1, true⟩ ⟨[("a", [1]), ("b", [2])]⟩
        ⟨[2], [0, 0], [1, 1]⟩).1.transform ⟨[("a", [5])]⟩
        ⟨[2], [0, 0], [1, 1]⟩).2 = .error (.keyError "b") := by
  have hres : (n.transform X sp).1 = { n with columns := some X.colNames } := by
    rw [n.transform_eq_of_none h X sp]
  have hres0 : (MinMaxNormalizer.transform ⟨none, 0, 1, true⟩
      ⟨[("a", [1]), ("b", [2])]⟩ ⟨[2], [0, 0], [1, 1]⟩).1 =
      (⟨some ["a", "b"], 0, 1, true⟩ : MinMaxNormalizer) := by
    rw [MinMaxNormalizer.transform_eq_of_none _ rfl _ _]
    rfl
  refine ⟨by rw [hres], ?_, by rw [hres0], ?_⟩
  · intro X2 sp2
    rw [hres, MinMaxNormalizer.transform_eq_of_some _ X.colNames rfl X2 sp2]
  · rw [hres0, MinMaxNormalizer.transform_eq_of_some _ ["a", "b"] rfl _ _]
    have e1 : normalizedColumn (⟨some ["a", "b"], 0, 1, true⟩ : MinMaxNormalizer)
        ⟨[("a", [5])]⟩ ⟨[2], [0, 0], [1, 1]⟩ 0 "a" =
        .ok ([(5 : ℚ)].map (fun v => (v - 0) / ((1 : ℚ) - 0) * 1)) :=
      MinMaxNormalizer.normalizedColumn_nondeg _ _ _ _ _ 0 1 [5] rfl rfl
        (by norm_num) rfl
    have e2 : ∀ vals, MinMaxNormalizer.transformLoop
        (⟨some ["a", "b"], 0, 1, true⟩ : MinMaxNormalizer) ⟨[2], [0, 0], [1, 1]⟩
        1 ["b"] (Table.assign ⟨[("a", [5])]⟩ "a" vals) = .error (.keyError "b") := by
      intro vals
      have hb : (Table.assign ⟨[("a", [5])]⟩ "a" vals).lookup "b" = none := by
        rw [Table.lookup_assign_ne _ "b" "a" vals (by decide)]
        rfl
      rw [MinMaxNormalizer.transformLoop_cons,
        MinMaxNormalizer.normalizedColumn_keyError _ _ ⟨[2], [0, 0], [1, 1]⟩
          1 "b" 0 1 rfl rfl hb]
    rw [MinMaxNormalizer.transformLoop_cons, e1]
    exact e2 _

/-- C4 witness: the theorem applied at the concrete Scenario D inputs. -/
theorem claim_C4_lazy_resolution_witness :
    (MinMaxNormalizer.transform ⟨none, 0, 1, true⟩ ⟨[("a", [1]), ("b", [2])]⟩
        ⟨[2], [0, 0], [1, 1]⟩).1.columns = some ["a", "b"] ∧
    ((MinMaxNormalizer.transform ⟨none, 0, 1, true⟩ ⟨[("a", [1]), ("b", [2])]⟩
        ⟨[2], [0, 0], [1, 1]⟩).1.transform ⟨[("a", [5])]⟩
        ⟨[2], [0, 0], [1, 1]⟩).2 = .error (.keyError "b") := by
  have h := claim_C4_lazy_resolution ⟨none, 0, 1, true⟩
    ⟨[("a", [1]), ("b", [2])]⟩ ⟨[2], [0, 0], [1, 1]⟩ rfl
  exact ⟨h.2.2.1, h.2.2.2⟩

/-- C5: a degenerate tracked column (`high = low`) over a zero-row table
makes the loop body raise an unguarded `ZeroDivisionError` from the
`1/len(X[column])` term; the loop, and `transform` itself when the column is
first, propagate it to the caller unchanged — no catching, retry or
recovery. -/
theorem claim_C5_zero_rows_division (n : MinMaxNormalizer) (sp : Space)
    (X : Table) (idx : Nat) (column : String) (low high : ℚ)
    (hlow : sp.low.get? idx = some low) (hhigh : sp.high.get? idx = some high)
    (hdeg : high - low = 0) (hcol : X.lookup column = some ([] : List ℚ)) :
    n.normalizedColumn X sp idx column = .error .zeroDivisionError ∧
    (∀ rest, transformLoop n sp idx (column :: rest) X =
      .error .zeroDivisionError) ∧
    (∀ cs, n.columns = some (column :: cs) → idx = 0 →
      n.transform X sp = (n, .error .zeroDivisionError)) := by
  have h1 : n.normalizedColumn X sp idx column = .error .zeroDivisionError := by
    unfold MinMaxNormalizer.normalizedColumn
    rw [hlow, hhigh]
    simp [hdeg, hcol]
  have h2 : ∀ rest, transformLoop n sp idx (column :: rest) X =
      .error .zeroDivisionError := by
    intro rest
    rw [MinMaxNormalizer.transformLoop_cons, h1]
  refine ⟨h1, h2, ?_⟩
  intro cs hcs hidx
  subst hidx
  rw [n.transform_eq_of_some (column :: cs) hcs X sp, h2 cs]

/-- C5 witness: degenerate bounds `low = high = 5` and an empty `price`
column raise the division error, propagated through `transform`. -/
theorem claim_C5_zero_rows_division_witness :
    normalizedColumn ⟨some ["price"], 0, 1, true⟩ ⟨[("price", [])]⟩
        ⟨[1], [5], [5]⟩ 0 "price" = .error .zeroDivisionError ∧
    MinMaxNormalizer.transform ⟨some ["price"], 0, 1, true⟩ ⟨[("price", [])]⟩
        ⟨[1], [5], [5]⟩ = (⟨some ["price"], 0, 1, true⟩, .error .zeroDivisionError) := by
  have h := claim_C5_zero_rows_division ⟨some ["price"], 0, 1, true⟩
    ⟨[1], [5], [5]⟩ ⟨[("price", [])]⟩ 0 "price" 5 5
    rfl rfl (by norm_num) rfl
  exact ⟨h.1, h.2.2 [] rfl rfl⟩

/-- C6: with `inplace = False` and a resolved non-empty `ColumnSet`,
`transform_space` returns the descriptor whose first shape entry grows by the
number of tracked columns and whose `low` / `high` get `feature_min` /
`feature_max` appended exactly once per tracked column, in order. -/
theorem claim_C6_space_growth (n : MinMaxNormalizer) (sp : Space)
    (column_names : List String) (c : String) (cs : List String)
    (shape_x : Nat) (shape_y : List Nat) (hin : n.inplace = false)
    (hcols : n.columns = some (c :: cs)) (hshape : sp.shape = shape_x :: shape_y) :
    n.transform_space sp column_names =
      .ok { shape := (shape_x + (c :: cs).length) :: shape_y
            low := sp.low ++ List.replicate (c :: cs).length n.feature_min
            high := sp.high ++ List.replicate (c :: cs).length n.feature_max } := by
  unfold MinMaxNormalizer.transform_space
  rw [hin, hshape, hcols]
  simp only [Bool.false_eq_true, if_false]
  rw [foldl_append_replicate, foldl_append_replicate]

/-- C6 witness: one tracked column over a one-dimensional descriptor with
range `(0, 1)` yields shape `(2,)` and bounds `[0, 0]` / `[1, 1]`. -/
theorem claim_C6_space_growth_witness :
    MinMaxNormalizer.transform_space ⟨some ["a"], 0, 1, false⟩ ⟨[1], [0], [1]⟩ ["a"] =
      .ok ⟨[2], [0, 0], [1, 1]⟩ := by
  have h := claim_C6_space_growth ⟨some ["a"], 0, 1, false⟩ ⟨[1], [0], [1]⟩
    ["a"] "a" [] 1 [] rfl rfl rfl
  rw [h]
  rfl

theorem MinMaxNormalizer.transformLoop_spec (n : MinMaxNormalizer) (sp : Space) :
    ∀ (cs : List String) (idx : Nat) (X Y : Table),
      MinMaxNormalizer.transformLoop n sp idx cs X = .ok Y →
      (cs.map n.destName).Nodup →
      (∀ d ∈ cs.map n.destName, d ∉ X.colNames) →
      (∀ c ∈ cs, c ∈ X.colNames) →
      (∀ c, c ∉ cs.map n.destName → Y.lookup c = X.lookup c) ∧
      Y.colNames = X.colNames ++ cs.map n.destName ∧
      (∀ j (hj : j < cs.length), ∃ vals,
        n.normalizedColumn X sp (idx + j) (cs.get ⟨j, hj⟩) = .ok vals ∧
        Y.lookup (n.destName (cs.get ⟨j, hj⟩)) = some vals) := by
  intro cs
  induction cs with
  | nil =>
    intro idx X Y hloop _ _ _
    simp only [MinMaxNormalizer.transformLoop_nil, Except.ok.injEq] at hloop
    subst hloop
    refine ⟨fun c _ => rfl, by simp, fun j hj => absurd hj (by simp)⟩
  | cons c cs ih =>
    intro idx X Y hloop hnodup hfresh htracked
    rw [MinMaxNormalizer.transformLoop_cons] at hloop
    cases hnc : n.normalizedColumn X sp idx c with
    | error e => rw [hnc] at hloop; simp at hloop
    | ok vals0 =>
      rw [hnc] at hloop
      simp only [] at hloop
      have hnodup_c : (n.destName c :: cs.map n.destName).Nodup := by
        simpa only [List.map_cons] using hnodup
      have hnodup_all := List.nodup_cons.mp hnodup_c
      have hfresh0 : n.destName c ∉ X.colNames := hfresh _ (by simp)
      have hcolsX' : (X.assign (n.destName c) vals0).colNames =
          X.colNames ++ [n.destName c] :=
        X.colNames_assign_of_not_mem _ vals0 hfresh0
      have hfresh' : ∀ d ∈ cs.map n.destName,
          d ∉ (X.assign (n.destName c) vals0).colNames := by
        intro d hd
        rw [hcolsX']
        simp only [List.mem_append, List.mem_singleton]
        rintro (hmem | hmem)
        · exact hfresh d (by simp [hd]) hmem
        · exact hnodup_all.1 (hmem ▸ hd)
      have htracked' : ∀ c' ∈ cs, c' ∈ (X.assign (n.destName c) vals0).colNames := by
        intro c' hc'
        rw [hcolsX']
        exact List.mem_append_left _ (htracked c' (by simp [hc']))
      obtain ⟨P1, P2, P3⟩ := ih (idx + 1) (X.assign (n.destName c) vals0) Y hloop
        hnodup_all.2 hfresh' htracked'
      refine ⟨?_, ?_, ?_⟩
      · intro e he
        simp only [List.map_cons, List.mem_cons, not_or] at he
        rw [P1 e he.2]
        exact X.lookup_assign_ne e (n.destName c) vals0 (fun hdd => he.1 hdd.symm)
      · rw [P2, hcolsX', List.map_cons]
        simp [List.append_assoc]
      · intro j hj
        cases j with
        | zero =>
          refine ⟨vals0, by simpa using hnc, ?_⟩
          show Y.lookup (n.destName c) = some vals0
          rw [P1 _ hnodup_all.1]
          exact X.lookup_assign_self (n.destName c) vals0
        | succ j' =>
          have hj' : j' < cs.length := by simpa using hj
          obtain ⟨vals, hv1, hv2⟩ := P3 j' hj'
          refine ⟨vals, ?_, hv2⟩
          have hcc0 : cs.get ⟨j', hj'⟩ ∈ cs := List.get_mem cs j' hj'
          have hcc : cs.get ⟨j', hj'⟩ ∈ X.colNames :=
            htracked _ (List.mem_cons_of_mem c hcc0)
          have hne : n.destName c ≠ cs.get ⟨j', hj'⟩ := fun hdd => hfresh0 (hdd ▸ hcc)
          have hcongr : n.normalizedColumn X sp (idx + 1 + j') (cs.get ⟨j', hj'⟩) =
              n.normalizedColumn (X.assign (n.destName c) vals0) sp (idx + 1 + j')
                (cs.get ⟨j', hj'⟩) :=
            MinMaxNormalizer.normalizedColumn_congr n X _ sp _ _
              (X.lookup_assign_ne _ _ vals0 hne).symm
          have hidx : idx + (j' + 1) = idx + 1 + j' := by omega
          show n.normalizedColumn X sp (idx + (j' + 1)) (cs.get ⟨j', hj'⟩) = .ok vals
          rw [hidx]
          exact hcongr.trans hv1

/-- C8 counterexample: the claim "all non-tracked columns pass through
unchanged" fails as stated.  With tracked column `price` in append mode
(`feature_min = 0`, `feature_max = 1`) and a table that already contains a
non-tracked column literally named `price_minmax_0_1` holding `[99]`,
`transform` overwrites that column with the rescaled values (`[10] ≠ [99]`),
because `assign` replaces an existing column of the synthesized name. -/
theorem claim_C8_counterexample :
    (MinMaxNormalizer.transform ⟨some ["price"], 0, 1, false⟩
        ⟨[("price", [10]), ("price_minmax_0_1", [99])]⟩ ⟨[2], [0], [1]⟩).2 =
      .ok ⟨[("price", [10]),
            ("price_minmax_0_1", [(10 : ℚ)].map (fun v => (v - 0) / ((1 : ℚ) - 0) * 1))]⟩ ∧
    Table.lookup ⟨[("price", [10]), ("price_minmax_0_1", [99])]⟩ "price_minmax_0_1" =
      some [99] ∧
    [(10 : ℚ)].map (fun v => (v - 0) / ((1 : ℚ) - 0) * 1) ≠ [99] := by
  refine ⟨?_, rfl, by norm_num⟩
  rw [MinMaxNormalizer.transform_eq_of_some _ ["price"] rfl _ _,
    MinMaxNormalizer.transformLoop_cons,
    MinMaxNormalizer.normalizedColumn_nondeg ⟨some ["price"], 0, 1, false⟩
      ⟨[("price", [10]), ("price_minmax_0_1", [99])]⟩ ⟨[2], [0], [1]⟩ 0 "price"
      0 1 [10] rfl rfl (by norm_num) rfl]
  rfl

/-- C8 (amended): with `inplace = False`, for every tracked column the
rescaled values are written to a column named
`{original}_minmax_{feature_min}_{feature_max}`; provided the synthesized
destination names are pairwise distinct and absent from the input table —
the condition the counterexample shows is needed — the destinations are new
columns appended in order, each original tracked column remains unchanged in
the output, and all other columns pass through unchanged. -/
theorem claim_C8_append_mode_amended (n : MinMaxNormalizer) (X Y : Table)
    (sp : Space) (cs : List String) (hin : n.inplace = false)
    (hcols : n.columns = some cs) (hok : (n.transform X sp).2 = .ok Y)
    (hnodup : (cs.map n.destName).Nodup)
    (hfresh : ∀ d ∈ cs.map n.destName, d ∉ X.colNames)
    (htracked : ∀ c ∈ cs, c ∈ X.colNames) :
    (∀ c ∈ cs, n.destName c =
      c ++ "_minmax_" ++ fmtNum n.feature_min ++ "_" ++ fmtNum n.feature_max) ∧
    Y.colNames = X.colNames ++ cs.map n.destName ∧
    (∀ c, c ∉ cs.map n.destName → Y.lookup c = X.lookup c) ∧
    (∀ c ∈ cs, Y.lookup c = X.lookup c) ∧
    (∀ j (hj : j < cs.length), ∃ vals,
      n.normalizedColumn X sp j (cs.get ⟨j, hj⟩) = .ok vals ∧
      Y.lookup (n.destName (cs.get ⟨j, hj⟩)) = some vals) := by
  have hloop : MinMaxNormalizer.transformLoop n sp 0 cs X = .ok Y := by
    rw [n.transform_eq_of_some cs hcols X sp] at hok
    exact hok
  obtain ⟨P1, P2, P3⟩ := n.transformLoop_spec sp cs 0 X Y hloop hnodup hfresh htracked
  refine ⟨?_, P2, P1, ?_, ?_⟩
  · intro c hc
    unfold MinMaxNormalizer.destName
    rw [hin]
    simp
  · intro c hc
    exact P1 c (fun hmem => hfresh c hmem (htracked c hc))
  · intro j hj
    have h := P3 j hj
    simpa using h

/-- C8 witness: Scenario C of the spec — `price = [10, 20, 30]`, bounds
`10` / `30`, append mode — yields a table whose destination column is the
new `price_minmax_0_1` and whose `price` column is untouched. -/
theorem claim_C8_append_mode_amended_witness :
    (MinMaxNormalizer.transform ⟨some ["price"], 0, 1, false⟩
        ⟨[("price", [10, 20, 30])]⟩ ⟨[1], [10], [30]⟩).2 =
      .ok ⟨[("price", [10, 20, 30]),
            ("price_minmax_0_1",
              [(10 : ℚ), 20, 30].map (fun v => (v - 10) / ((30 : ℚ) - 10) * 1))]⟩ ∧
    Table.lookup ⟨[("price", [10, 20, 30]),
          ("price_minmax_0_1",
            [(10 : ℚ), 20, 30].map (fun v => (v - 10) / ((30 : ℚ) - 10) * 1))]⟩
        "price" = some [10, 20, 30] := by
  have hok : (MinMaxNormalizer.transform ⟨some ["price"], 0, 1, false⟩
      ⟨[("price", [10, 20, 30])]⟩ ⟨[1], [10], [30]⟩).2 =
      .ok ⟨[("price", [10, 20, 30]),
            ("price_minmax_0_1",
              [(10 : ℚ), 20, 30].map (fun v => (v - 10) / ((30 : ℚ) - 10) * 1))]⟩ := by
    rw [MinMaxNormalizer.transform_eq_of_some _ ["price"] rfl _ _,
      MinMaxNormalizer.transformLoop_cons,
      MinMaxNormalizer.normalizedColumn_nondeg ⟨some ["price"], 0, 1, false⟩
        ⟨[("price", [10, 20, 30])]⟩ ⟨[1], [10], [30]⟩ 0 "price"
        10 30 [10, 20, 30] rfl rfl (by norm_num) rfl]
    rfl
  have h := claim_C8_append_mode_amended ⟨some ["price"], 0, 1, false⟩
    ⟨[("price", [10, 20, 30])]⟩
    ⟨[("price", [10, 20, 30]),
      ("price_minmax_0_1",
        [(10 : ℚ), 20, 30].map (fun v => (v - 10) / ((30 : ℚ) - 10) * 1))]⟩
    ⟨[1], [10], [30]⟩ ["price"] rfl rfl hok (by decide) (by decide) (by decide)
  exact ⟨hok, (h.2.2.2.1 "price" (by decide)).trans rfl⟩

/-- C9: with `inplace = True`, `transform_space` is the identity on the space
descriptor, for every descriptor and every column-name list. -/
theorem claim_C9_inplace_identity (n : MinMaxNormalizer) (sp : Space)
    (column_names : List String) (hin : n.inplace = true) :
    n.transform_space sp column_names = .ok sp := by
  unfold MinMaxNormalizer.transform_space
  rw [hin]
  simp

/-- C9 witness: a concrete in-place transformer returns the descriptor
unchanged. -/
theorem claim_C9_inplace_identity_witness :
    MinMaxNormalizer.transform_space ⟨some ["a"], 0, 1, true⟩ ⟨[1], [0], [1]⟩ ["a"] =
      .ok ⟨[1], [0], [1]⟩ :=
  claim_C9_inplace_identity ⟨some ["a"], 0, 1, true⟩ ⟨[1], [0], [1]⟩ ["a"] rfl

/-- C10: a transformer constructed with an explicit empty column list returns
every input table unchanged, and the lazy resolution does not trigger — the
empty configuration persists (it fires only on `None`, not on `[]`). -/
theorem claim_C10_empty_columns (n : MinMaxNormalizer) (X : Table) (sp : Space)
    (hcols : n.columns = some []) :
    n.transform X sp = (n, .ok X) := by
  rw [n.transform_eq_of_some [] hcols X sp]
  rfl

theorem HPres.refl (h : Heap) : HPres h h :=
  ⟨le_rfl, le_rfl, le_rfl, fun _ _ => rfl, fun _ _ => rfl, fun _ _ => rfl⟩

theorem HPres.trans {h0 h1 h2 : Heap} (a : HPres h0 h1) (b : HPres h1 h2) :
    HPres h0 h2 :=
  ⟨a.arrays_le.trans b.arrays_le, a.spaces_le.trans b.spaces_le,
    a.tables_le.trans b.tables_le,
    fun i hi => (b.arrays_eq i (lt_of_lt_of_le hi a.arrays_le)).trans (a.arrays_eq i hi),
    fun i hi => (b.spaces_eq i (lt_of_lt_of_le hi a.spaces_le)).trans (a.spaces_eq i hi),
    fun i hi => (b.tables_eq i (lt_of_lt_of_le hi a.tables_le)).trans (a.tables_eq i hi)⟩

theorem HPres.allocArray (h : Heap) (a : List ℚ) : HPres h (h.allocArray a).1 :=
  ⟨by simp [Heap.allocArray], le_rfl, le_rfl,
    fun i hi => List.get?_append hi, fun _ _ => rfl, fun _ _ => rfl⟩

theorem HPres.allocSpace (h : Heap) (o : SpObj) : HPres h (h.allocSpace o).1 :=
  ⟨le_rfl, by simp [Heap.allocSpace], le_rfl,
    fun _ _ => rfl, fun i hi => List.get?_append hi, fun _ _ => rfl⟩

theorem HPres.allocTable (h : Heap) (o : TbObj) : HPres h (h.allocTable o).1 :=
  ⟨le_rfl, le_rfl, by simp [Heap.allocTable],
    fun _ _ => rfl, fun _ _ => rfl, fun i hi => List.get?_append hi⟩

theorem HPres.setSpace {h0 h1 : Heap} (hp : HPres h0 h1) (r : Nat) (o : SpObj)
    (hr : h0.spaces.length ≤ r) : HPres h0 (h1.setSpace r o) := by
  refine ⟨hp.arrays_le, ?_, hp.tables_le, hp.arrays_eq, ?_, hp.tables_eq⟩
  · simpa only [Heap.setSpace, List.length_set] using hp.spaces_le
  · intro i hi
    have hir : r ≠ i := by omega
    simp only [Heap.setSpace]
    rw [List.get?_set_ne o h1.spaces hir]
    exact hp.spaces_eq i hi

theorem HPres.assignCol (h : Heap) (tr : Nat) (c : String) (vs : List ℚ) :
    HPres h (h.assignCol tr c vs).1 := by
  unfold Heap.assignCol
  cases hg : h.tables.get? tr with
  | none => exact HPres.refl h
  | some t => exact (HPres.allocArray h vs).trans (HPres.allocTable _ _)

theorem Heap.assignCol_none (h : Heap) (tr : Nat) (c : String) (vs : List ℚ)
    (hg : h.tables.get? tr = none) : h.assignCol tr c vs = (h, tr) := by
  unfold Heap.assignCol
  rw [hg]

theorem Heap.assignCol_some (h : Heap) (tr : Nat) (c : String) (vs : List ℚ)
    (t : TbObj) (hg : h.tables.get? tr = some t) :
    (h.assignCol tr c vs).2 = h.tables.length ∧
    (h.assignCol tr c vs).1.tables.length = h.tables.length + 1 := by
  unfold Heap.assignCol
  rw [hg]
  constructor <;> simp [Heap.allocArray, Heap.allocTable]

theorem MinMaxNormalizer.appendBounds_cons (n : MinMaxNormalizer) (r1 : Nat)
    (c : String) (rest : List String) (h : Heap) :
    MinMaxNormalizer.appendBounds n r1 (c :: rest) h =
      (let o := (h.spaces.get? r1).getD ⟨[], 0, 0⟩
       let pa := h.npAppend o.low n.feature_min
       let h2 := pa.1.setSpace r1 { o with low := pa.2 }
       let o2 := (h2.spaces.get? r1).getD ⟨[], 0, 0⟩
       let pb := h2.npAppend o2.high n.feature_max
       let h4 := pb.1.setSpace r1 { o2 with high := pb.2 }
       MinMaxNormalizer.appendBounds n r1 rest h4) := rfl

theorem MinMaxNormalizer.appendBounds_pres (n : MinMaxNormalizer) (r1 : Nat)
    (h0 : Heap) (hr : h0.spaces.length ≤ r1) :
    ∀ (cols : List String) (h : Heap), HPres h0 h →
      HPres h0 (MinMaxNormalizer.appendBounds n r1 cols h) := by
  intro cols
  induction cols with
  | nil => intro h hp; exact hp
  | cons c cols ih =>
    intro h hp
    rw [MinMaxNormalizer.appendBounds_cons]
    apply ih
    exact HPres.setSpace
      ((HPres.setSpace (hp.trans (HPres.allocArray h _)) r1 _ hr).trans
        (HPres.allocArray _ _)) r1 _ hr

theorem MinMaxNormalizer.transform_spaceH_pres (n : MinMaxNormalizer) (h : Heap)
    (r : Nat) (cn : List String) : HPres h (n.transform_spaceH h r cn).1 := by
  unfold MinMaxNormalizer.transform_spaceH
  cases hb : n.inplace with
  | true =>
    simp only [hb, if_true]
    exact HPres.refl h
  | false =>
    simp only [hb, Bool.false_eq_true, if_false]
    cases hg : h.spaces.get? r with
    | none =>
      simp only [hg]
      exact HPres.refl h
    | some sp =>
      simp only [hg]
      cases hsh : sp.shape with
      | nil =>
        simp only [hsh]
        exact HPres.allocSpace h sp
      | cons x ys =>
        simp only [hsh]
        cases hc : n.columns with
        | none =>
          simp only [hc]
          exact HPres.allocSpace h sp
        | some cs =>
          cases cs with
          | nil => exact HPres.allocSpace h sp
          | cons c cs =>
            exact MinMaxNormalizer.appendBounds_pres n (h.allocSpace sp).2 h
              (by simp [Heap.allocSpace]) (c :: cs) _
              (HPres.setSpace (HPres.allocSpace h sp) (h.allocSpace sp).2 _
                (by simp [Heap.allocSpace]))

theorem MinMaxNormalizer.transform_spaceH_ok_ref (n : MinMaxNormalizer) (h : Heap)
    (r : Nat) (cn : List String) (r' : Nat) (hin : n.inplace = false)
    (hok : (n.transform_spaceH h r cn).2 = .ok r') : r' = h.spaces.length := by
  unfold MinMaxNormalizer.transform_spaceH at hok
  simp only [hin, Bool.false_eq_true, if_false] at hok
  cases hg : h.spaces.get? r with
  | none =>
    simp only [hg] at hok
    exact (Except.noConfusion hok)
  | some sp =>
    simp only [hg] at hok
    cases hsh : sp.shape with
    | nil =>
      simp only [hsh] at hok
      exact (Except.noConfusion hok)
    | cons x ys =>
      simp only [hsh] at hok
      cases hc : n.columns with
      | none =>
        simp only [hc] at hok
        exact (Except.noConfusion hok)
      | some cs =>
        simp only [hc] at hok
        cases cs with
        | nil => simp at hok
        | cons c cs =>
          simp only [Except.ok.injEq] at hok
          rw [← hok]
          rfl

theorem MinMaxNormalizer.transformLoopH_nil (n : MinMaxNormalizer) (sp : Space)
    (idx : Nat) (h : Heap) (tr : Nat) :
    MinMaxNormalizer.transformLoopH n sp idx [] h tr = (h, .ok tr) := rfl

theorem MinMaxNormalizer.transformLoopH_cons (n : MinMaxNormalizer) (sp : Space)
    (idx : Nat) (column : String) (rest : List String) (h : Heap) (tr : Nat) :
    MinMaxNormalizer.transformLoopH n sp idx (column :: rest) h tr =
      match n.normalizedColumnH h tr sp idx column with
      | .error e => (h, .error e)
      | .ok vals =>
        MinMaxNormalizer.transformLoopH n sp (idx + 1) rest
          (h.assignCol tr (n.destName column) vals).1
          (h.assignCol tr (n.destName column) vals).2 := rfl

theorem MinMaxNormalizer.transformLoopH_pres (n : MinMaxNormalizer) (sp : Space) :
    ∀ (cols : List String) (idx : Nat) (h : Heap) (tr : Nat),
      HPres h (MinMaxNormalizer.transformLoopH n sp idx cols h tr).1 := by
  intro cols
  induction cols with
  | nil => intro idx h tr; exact HPres.refl h
  | cons c cols ih =>
    intro idx h tr
    rw [MinMaxNormalizer.transformLoopH_cons]
    cases hnc : n.normalizedColumnH h tr sp idx c with
    | error e => exact HPres.refl h
    | ok vals => exact (HPres.assignCol h tr _ vals).trans (ih (idx + 1) _ _)

theorem MinMaxNormalizer.transformLoopH_ok_ref (n : MinMaxNormalizer) (sp : Space) :
    ∀ (cols : List String) (idx : Nat) (h : Heap) (tr : Nat) (h' : Heap) (tr' : Nat),
      MinMaxNormalizer.transformLoopH n sp idx cols h tr = (h', .ok tr') →
      tr' = tr ∨ h.tables.length ≤ tr' := by
  intro cols
  induction cols with
  | nil =>
    intro idx h tr h' tr' hE
    left
    rw [MinMaxNormalizer.transformLoopH_nil] at hE
    have := congrArg Prod.snd hE
    simpa using this.symm
  | cons c cols ih =>
    intro idx h tr h' tr' hE
    rw [MinMaxNormalizer.transformLoopH_cons] at hE
    cases hnc : n.normalizedColumnH h tr sp idx c with
    | error e =>
      rw [hnc] at hE
      have := congrArg Prod.snd hE
      simp at this
    | ok vals =>
      simp only [hnc] at hE
      cases hg : h.tables.get? tr with
      | none =>
        rw [Heap.assignCol_none h tr (n.destName c) vals hg] at hE
        simpa using ih (idx + 1) _ _ _ _ hE
      | some t =>
        obtain ⟨ha2, ha1⟩ := Heap.assignCol_some h tr (n.destName c) vals t hg
        rcases ih (idx + 1) _ _ _ _ hE with h1 | h1
        · right
          rw [h1, ha2]
        · right
          rw [ha1] at h1
          omega

theorem MinMaxNormalizer.transformLoopH_cons_ok_ref (n : MinMaxNormalizer)
    (sp : Space) (idx : Nat) (c : String) (cols : List String) (h : Heap)
    (tr : Nat) (h' : Heap) (tr' : Nat) (t : TbObj)
    (hg : h.tables.get? tr = some t)
    (hE : MinMaxNormalizer.transformLoopH n sp idx (c :: cols) h tr = (h', .ok tr')) :
    h.tables.length ≤ tr' := by
  rw [MinMaxNormalizer.transformLoopH_cons] at hE
  cases hnc : n.normalizedColumnH h tr sp idx c with
  | error e =>
    rw [hnc] at hE
    have := congrArg Prod.snd hE
    simp at this
  | ok vals =>
    simp only [hnc] at hE
    obtain ⟨ha2, ha1⟩ := Heap.assignCol_some h tr (n.destName c) vals t hg
    rcases MinMaxNormalizer.transformLoopH_ok_ref n sp cols (idx + 1) _ _ _ _ hE
      with h1 | h1
    · rw [h1, ha2]
    · rw [ha1] at h1
      omega

/-- C7: neither operation mutates its caller-owned inputs.  Over the
heap-instrumented embedding: `transform_space` leaves the input descriptor
object (its `shape`, `low`, `high` slots) and every pre-existing array
untouched, and in append mode a successful call returns a reference distinct
from the input's (a freshly constructed object); `transform` leaves the input
table object and every pre-existing array untouched, and with at least one
tracked column a successful call returns a fresh table object rather than
the input. -/
theorem claim_C7_no_mutation (n : MinMaxNormalizer) (h : Heap) (r tr : Nat)
    (cn : List String) (sp : Space) (o : SpObj) (t : TbObj)
    (hsp : h.spaces.get? r = some o) (htb : h.tables.get? tr = some t) :
    ((n.transform_spaceH h r cn).1.spaces.get? r = some o ∧
      ∀ i, i < h.arrays.length →
        (n.transform_spaceH h r cn).1.arrays.get? i = h.arrays.get? i) ∧
    (∀ r', n.inplace = false → (n.transform_spaceH h r cn).2 = .ok r' → r' ≠ r) ∧
    ((n.transformH h tr sp).2.1.tables.get? tr = some t ∧
      ∀ i, i < h.arrays.length →
        (n.transformH h tr sp).2.1.arrays.get? i = h.arrays.get? i) ∧
    (∀ c cs tr', (n.transformH h tr sp).1.columns = some (c :: cs) →
      (n.transformH h tr sp).2.2 = .ok tr' → tr' ≠ tr) := by
  obtain ⟨hrlt, -⟩ := List.get?_eq_some.mp hsp
  obtain ⟨htlt, -⟩ := List.get?_eq_some.mp htb
  have hpres1 := n.transform_spaceH_pres h r cn
  have hpres2 : HPres h (n.transformH h tr sp).2.1 :=
    MinMaxNormalizer.transformLoopH_pres _ sp _ 0 h tr
  refine ⟨⟨?_, fun i hi => hpres1.arrays_eq i hi⟩, ?_,
    ⟨?_, fun i hi => hpres2.arrays_eq i hi⟩, ?_⟩
  · rw [hpres1.spaces_eq r hrlt, hsp]
  · intro r' hin hok
    have := n.transform_spaceH_ok_ref h r cn r' hin hok
    omega
  · rw [hpres2.tables_eq tr htlt, htb]
  · intro c cs tr' hc hok
    have hpair : MinMaxNormalizer.transformLoopH (n.transformH h tr sp).1 sp 0
        ((n.transformH h tr sp).1.columns.getD []) h tr = (n.transformH h tr sp).2 := rfl
    rw [hc] at hpair
    simp only [Option.getD_some] at hpair
    have hE : MinMaxNormalizer.transformLoopH (n.transformH h tr sp).1 sp 0
        (c :: cs) h tr = ((n.transformH h tr sp).2.1, .ok tr') := by
      rw [hpair, ← hok]
    have hge := MinMaxNormalizer.transformLoopH_cons_ok_ref _ sp 0 c cs h tr _ tr'
      t htb hE
    omega

/-- C7 witness: a concrete heap with one space object, one table object and
three arrays — both operations leave the input objects' slots intact. -/
theorem claim_C7_no_mutation_witness :
    ((MinMaxNormalizer.transform_spaceH ⟨some ["a"], 0, 1, false⟩
        ⟨[[0], [1], [5]], [⟨[1], 0, 1⟩], [⟨[("a", 2)]⟩]⟩ 0 ["a"]).1.spaces.get? 0 =
      some ⟨[1], 0, 1⟩) ∧
    ((MinMaxNormalizer.transformH ⟨some ["a"], 0, 1, false⟩
        ⟨[[0], [1], [5]], [⟨[1], 0, 1⟩], [⟨[("a", 2)]⟩]⟩ 0
        ⟨[1], [0], [1]⟩).2.1.tables.get? 0 = some ⟨[("a", 2)]⟩) := by
  have h := claim_C7_no_mutation ⟨some ["a"], 0, 1, false⟩
    ⟨[[0], [1], [5]], [⟨[1], 0, 1⟩], [⟨[("a", 2)]⟩]⟩ 0 0 ["a"] ⟨[1], [0], [1]⟩
    ⟨[1], 0, 1⟩ ⟨[("a", 2)]⟩ rfl rfl
  exact ⟨h.1.1, h.2.2.1.1⟩

/-- C10 witness: an empty-column transformer maps a concrete table to itself
and keeps `columns = some []`. -/
theorem claim_C10_empty_columns_witness :
    MinMaxNormalizer.transform ⟨some [], 0, 1, true⟩ ⟨[("a", [1])]⟩ ⟨[1], [0], [1]⟩ =
      (⟨some [], 0, 1, true⟩, .ok ⟨[("a", [1])]⟩) :=
  claim_C10_empty_columns ⟨some [], 0, 1, true⟩ ⟨[("a", [1])]⟩ ⟨[1], [0], [1]⟩ rfl

end TensorTrade
